import Mathlib

/-!
Verification of the community-dashboard repository.

Part 1 models `src/lib/hooks/useScrollRestoration.ts`: the hook keeps four
mutable refs (`savedScrollY`, `hasMounted`, `prevIsActive`, `skipNextAutoSave`)
and, inside a layout effect, reacts to changes of the `isActive` flag.  We
embed the refs as a state record, the layout-effect body as a function
`observe` from state, current flag and current scroll reading to the new
state plus the list of scheduled browser actions, and the returned
`saveScrollPosition` closure as a state update.

Part 2 models the API route handler `GET` in `src/unnamed/part_000`: it
merges per-period leaderboard files into a deduplicated, bot-filtered,
highest-score-wins contributor list sorted by descending `total_points`,
together with the latest `updatedAt` timestamp.
-/

/-- The scheduled browser actions of the hook: `scrollTo top smooth` models
`window.scrollTo({ top, behavior })` (with `smooth = false` for
`behavior: "auto"`), and `raf k` models `requestAnimationFrame(() => k)`. -/
inductive Deferred where
  | scrollTo (top : Nat) (smooth : Bool)
  | raf (next : Deferred)
deriving DecidableEq, Repr

/-- The four refs of `useScrollRestoration`. -/
structure ControllerState where
  savedScrollY : Nat
  hasMounted : Bool
  prevIsActive : Bool
  skipNextAutoSave : Bool
deriving DecidableEq, Repr

/-- Ref initialisation at mount: `useRef(0)`, `useRef(false)`,
`useRef(isActive)`, `useRef(false)`. -/
def initState (isActive : Bool) : ControllerState :=
  { savedScrollY := 0, hasMounted := false, prevIsActive := isActive,
    skipNextAutoSave := false }

/-- The body of the `useLayoutEffect` in `useScrollRestoration`, as a function
of the previous ref state, the current `isActive` flag and the current
`window.scrollY` reading.  Returns the updated refs and the list of actions
scheduled during the run. -/
def observe (s : ControllerState) (isActive : Bool) (scrollY : Nat) :
    ControllerState × List Deferred :=
  let wasActive := s.prevIsActive
  let s1 := { s with prevIsActive := isActive }
  if s1.hasMounted = false then
    ({ s1 with hasMounted := true }, [])
  else if wasActive = true ∧ isActive = false then
    if s1.skipNextAutoSave = true then
      ({ s1 with skipNextAutoSave := false }, [])
    else
      let y := scrollY
      if y ≠ 0 ∨ s1.savedScrollY = 0 then
        ({ s1 with savedScrollY := y }, [])
      else (s1, [])
  else if wasActive = false ∧ isActive = true then
    let y := s1.savedScrollY
    if y = 0 then (s1, [])
    else (s1, [Deferred.raf (Deferred.raf (Deferred.scrollTo y false))])
  else (s1, [])

/-- The `saveScrollPosition` closure returned by the hook: arms
`skipNextAutoSave` and captures the current `window.scrollY`. -/
def saveScrollPosition (s : ControllerState) (scrollY : Nat) : ControllerState :=
  { s with skipNextAutoSave := true, savedScrollY := scrollY }

/-- States reachable from a mount: the initial refs, followed by any sequence
of effect runs and explicit saves. -/
inductive Reachable : ControllerState → Prop where
  | init (a : Bool) : Reachable (initState a)
  | observe (s : ControllerState) (a : Bool) (y : Nat) :
      Reachable s → Reachable (observe s a y).1
  | save (s : ControllerState) (y : Nat) :
      Reachable s → Reachable (saveScrollPosition s y)


/-- JS `String.prototype.includes`, over the character list of the receiver:
the pattern occurs as a contiguous substring. -/
def includesAux (pat : List Char) : List Char → Bool
  | [] => pat.isEmpty
  | c :: rest => pat.isPrefixOf (c :: rest) || includesAux pat rest

/-- `s.includes(pat)` of JS. -/
def stringIncludes (s pat : String) : Bool :=
  includesAux pat.toList s.toList

/-- The bot filter of the route handler: the five `username.includes(...)`
tests, combined with `||` as in the source. -/
def isBotUsername (u : String) : Bool :=
  stringIncludes u "[bot]" ||
  stringIncludes u "bot" ||
  stringIncludes u "dependabot" ||
  stringIncludes u "renovate" ||
  stringIncludes u "github-actions"

/-- One bucket of `activity_breakdown`. -/
structure ActivityCount where
  count : Nat
  points : Nat
deriving DecidableEq, Repr

/-- One element of `daily_activity`. -/
structure ActivityDay where
  date : String
  count : Nat
  points : Nat
deriving DecidableEq, Repr

/-- `ContributorEntry` of the route handler. -/
structure ContributorEntry where
  username : String
  name : Option String
  avatar_url : String
  role : String
  total_points : Int
  activity_breakdown : List (String × ActivityCount)
  daily_activity : List ActivityDay
deriving DecidableEq, Repr

/-- `LeaderboardData`: one parsed per-period file. -/
structure LeaderboardData where
  period : String
  updatedAt : Nat
  entries : List ContributorEntry
deriving DecidableEq, Repr

/-- `Map.prototype.get` on the insertion-ordered map of contributors,
modelled as an association list. -/
def mapGet (m : List (String × ContributorEntry)) (k : String) :
    Option ContributorEntry :=
  match m with
  | [] => none
  | (k0, v0) :: rest => if k0 = k then some v0 else mapGet rest k

/-- `Map.prototype.set`: replaces in place when the key exists (JS maps keep
the original insertion position), appends otherwise. -/
def mapSet (m : List (String × ContributorEntry)) (k : String)
    (v : ContributorEntry) : List (String × ContributorEntry) :=
  match m with
  | [] => [(k, v)]
  | (k0, v0) :: rest =>
      if k0 = k then (k, v) :: rest else (k0, v0) :: mapSet rest k v

/-- The body of the inner `for (const entry of data.entries)` loop: skip
bot-like usernames, otherwise keep the entry when the username is new or the
new `total_points` is strictly greater. -/
def addEntry (m : List (String × ContributorEntry)) (e : ContributorEntry) :
    List (String × ContributorEntry) :=
  if isBotUsername e.username then m
  else
    match mapGet m e.username with
    | none => mapSet m e.username e
    | some existing =>
        if existing.total_points < e.total_points then mapSet m e.username e
        else m

/-- Processing one successfully parsed file: bump `latestUpdatedAt` when the
file is newer, then fold its entries into the contributor map. -/
def mergeFile (acc : Nat × List (String × ContributorEntry))
    (data : LeaderboardData) : Nat × List (String × ContributorEntry) :=
  let latest := if acc.1 < data.updatedAt then data.updatedAt else acc.1
  (latest, data.entries.foldl addEntry acc.2)

/-- The outer `for (const file of files)` loop with its `try/catch`: a file
that fails to read or parse (`none`) is skipped and the loop continues. -/
def runMerge (files : List (Option LeaderboardData)) :
    Nat × List (String × ContributorEntry) :=
  files.foldl
    (fun acc f => match f with | none => acc | some d => mergeFile acc d)
    (0, [])

/-- Stable insertion into a list sorted by descending `total_points`,
matching the comparator `(a, b) => b.total_points - a.total_points` under
JS's stable `Array.prototype.sort`. -/
def insertByPointsDesc (e : ContributorEntry) :
    List ContributorEntry → List ContributorEntry
  | [] => [e]
  | x :: xs =>
      if e.total_points < x.total_points then x :: insertByPointsDesc e xs
      else e :: x :: xs

/-- `Array.from(allContributors.values()).sort(...)` as a stable sort. -/
def sortByPointsDesc (l : List ContributorEntry) : List ContributorEntry :=
  l.foldr insertByPointsDesc []

/-- The route handler `GET`: merge all files, then return the latest
`updatedAt` and the contributors sorted by descending `total_points`. -/
def GET (files : List (Option LeaderboardData)) : Nat × List ContributorEntry :=
  let res := runMerge files
  (res.1, sortByPointsDesc (res.2.map Prod.snd))

theorem observe_prevIsActive (s : ControllerState) (a : Bool) (y : Nat) :
    (observe s a y).1.prevIsActive = a := by
  cases s with
  | mk sv hm pv sk =>
    simp only [observe]
    split_ifs <;> rfl

theorem observe_hasMounted (s : ControllerState) (a : Bool) (y : Nat) :
    (observe s a y).1.hasMounted = true := by
  cases s with
  | mk sv hm pv sk =>
    simp only [observe]
    split_ifs <;> simp_all

theorem observe_unchanged_flag (s : ControllerState) (y : Nat)
    (hm : s.hasMounted = true) :
    observe s s.prevIsActive y = (s, []) := by
  cases s with
  | mk sv hmt pv sk =>
    simp only [observe] at *
    subst hm
    cases pv <;> simp

/-- C1: for every reachable controller state, a zero scroll reading on an
Active→Inactive observation with `skipNextAutoSave` unset never clobbers a
non-zero `savedScrollY`; more generally `savedScrollY` is only changed by an
effect run when it is a deactivation whose reading is non-zero or whose stored
value is zero, the new value being the reading. -/
theorem saved_offset_overwrite_only (s : ControllerState) (hreach : Reachable s) :
    (∀ v : Nat, v ≠ 0 → s.savedScrollY = v → s.skipNextAutoSave = false →
      (observe s false 0).1.savedScrollY = v) ∧
    (∀ (a : Bool) (y : Nat), (observe s a y).1.savedScrollY ≠ s.savedScrollY →
      s.prevIsActive = true ∧ a = false ∧ (y ≠ 0 ∨ s.savedScrollY = 0) ∧
      (observe s a y).1.savedScrollY = y) := by
  clear hreach
  cases s with
  | mk sv hm pv sk =>
    constructor
    · intro v hv hsv hsk
      simp only [observe]
      split_ifs <;> simp_all
    · intro a y
      simp only [observe]
      split_ifs <;> simp_all

theorem saved_offset_overwrite_only_witness :
    (observe { savedScrollY := 150, hasMounted := true, prevIsActive := true,
               skipNextAutoSave := false } false 0).1.savedScrollY = 150 := by
  have h := saved_offset_overwrite_only
    { savedScrollY := 150, hasMounted := true, prevIsActive := true,
      skipNextAutoSave := false }
    (Reachable.observe _ true 7
      (Reachable.observe _ false 150
        (Reachable.observe _ true 0 (Reachable.init true))))
  exact h.1 150 (by decide) (by decide) (by decide)

/-- C2: past the first observation with `skipNextAutoSave` unset, an
Active→Inactive observation with reading `y` commits `y` to `savedScrollY`
exactly when `y` is non-zero or the stored value is zero. -/
theorem save_on_deactivate (s : ControllerState) (y : Nat)
    (hm : s.hasMounted = true) (hskip : s.skipNextAutoSave = false)
    (hact : s.prevIsActive = true) :
    (observe s false y).1.savedScrollY =
      (if y ≠ 0 ∨ s.savedScrollY = 0 then y else s.savedScrollY) := by
  cases s with
  | mk sv hmt pv sk =>
    simp_all only [ControllerState.mk.injEq]
    subst hm hskip hact
    simp only [observe]
    split_ifs <;> simp_all

theorem save_on_deactivate_witness :
    (observe (observe (initState true) true 0).1 false 150).1.savedScrollY = 150 := by
  have h := save_on_deactivate (observe (initState true) true 0).1 150
    (by decide) (by decide) (by decide)
  simpa using h

/-- C3: past the first observation, an Inactive→Active observation schedules
no action when `savedScrollY` is zero, and otherwise schedules exactly one
non-animated scroll to `savedScrollY` behind two `requestAnimationFrame`
deferrals. -/
theorem restore_on_activate (s : ControllerState) (y : Nat)
    (hm : s.hasMounted = true) (hact : s.prevIsActive = false) :
    (observe s true y).2 =
      (if s.savedScrollY = 0 then []
       else [Deferred.raf (Deferred.raf (Deferred.scrollTo s.savedScrollY false))]) := by
  cases s with
  | mk sv hmt pv sk =>
    simp_all only
    subst hm hact
    simp only [observe]
    split_ifs <;> simp_all

theorem restore_on_activate_witness :
    (observe (observe (observe (initState true) true 0).1 false 150).1 true 0).2 =
      [Deferred.raf (Deferred.raf (Deferred.scrollTo 150 false))] := by
  have h := restore_on_activate
    (observe (observe (initState true) true 0).1 false 150).1 0
    (by decide) (by decide)
  simpa using h

/-- C4: `saveScrollPosition` stores the current reading and arms
`skipNextAutoSave`; the next deactivation (even one reading 0) keeps the stored
value and clears the flag, and the deactivation after that saves normally. -/
theorem explicit_save_suppression (s : ControllerState) (y y0 y1 y2 : Nat)
    (hm : s.hasMounted = true) (hact : s.prevIsActive = true) (hy2 : y2 ≠ 0) :
    ((saveScrollPosition s y).savedScrollY = y ∧
     (saveScrollPosition s y).skipNextAutoSave = true) ∧
    ((observe (saveScrollPosition s y) false y0).1.savedScrollY = y ∧
     (observe (saveScrollPosition s y) false y0).1.skipNextAutoSave = false) ∧
    (observe (observe (observe (saveScrollPosition s y) false y0).1 true y1).1
        false y2).1.savedScrollY = y2 := by
  cases s with
  | mk sv hmt pv sk =>
    simp_all only
    subst hm hact
    have e1 : (observe (saveScrollPosition
        { savedScrollY := sv, hasMounted := true, prevIsActive := true,
          skipNextAutoSave := sk } y) false y0).1 =
        { savedScrollY := y, hasMounted := true, prevIsActive := false,
          skipNextAutoSave := false } := rfl
    have e2 : (observe (ControllerState.mk y true false false) true y1).1 =
        ControllerState.mk y true true false := by
      simp only [observe]
      split_ifs <;> simp_all
    have e3 : (observe (ControllerState.mk y true true false)
        false y2).1.savedScrollY = y2 := by
      simp only [observe]
      split_ifs <;> simp_all
    refine ⟨⟨rfl, rfl⟩, ⟨?_, ?_⟩, ?_⟩
    · rw [e1]
    · rw [e1]
    · rw [e1, e2, e3]

theorem explicit_save_suppression_witness :
    (observe (saveScrollPosition
        { savedScrollY := 5, hasMounted := true, prevIsActive := true,
          skipNextAutoSave := false } 300) false 0).1.savedScrollY = 300 := by
  have h := explicit_save_suppression
    { savedScrollY := 5, hasMounted := true, prevIsActive := true,
      skipNextAutoSave := false } 300 0 7 42
    (by decide) (by decide) (by decide)
  exact h.2.1.1

/-- C5: the first-ever observation records the flag and performs neither a
save nor a scheduled restore, for either initial flag value. -/
theorem no_spurious_action_on_mount (a b : Bool) (y : Nat) :
    (observe (initState a) b y).1.prevIsActive = b ∧
    (observe (initState a) b y).1.savedScrollY = 0 ∧
    (observe (initState a) b y).1.skipNextAutoSave = false ∧
    (observe (initState a) b y).2 = [] := by
  simp [observe, initState]

/-- C6: a second consecutive observation with an unchanged activation flag
performs no save and no restore and leaves the controller state unchanged. -/
theorem idempotent_repeated_observation (s : ControllerState) (a : Bool)
    (y1 y2 : Nat) :
    (observe (observe s a y1).1 a y2).1 = (observe s a y1).1 ∧
    (observe (observe s a y1).1 a y2).2 = [] := by
  have hm := observe_hasMounted s a y1
  have hp := observe_prevIsActive s a y1
  have h := observe_unchanged_flag (observe s a y1).1 y2 hm
  rw [hp] at h
  rw [h]
  exact ⟨rfl, rfl⟩

/-- C9: an Inactive→Active observation modifies neither `savedScrollY` nor
`skipNextAutoSave`; restoration does not consume the saved offset, so a
deactivate (reading 0) / reactivate cycle schedules a restore to the same
value again; an unchanged-flag observation preserves `skipNextAutoSave`; and
an armed flag survives an activation and is consumed, with the save skipped,
by the next deactivation. -/
theorem activation_frame (s : ControllerState) (y y2 y3 : Nat)
    (hm : s.hasMounted = true) (hact : s.prevIsActive = false) :
    ((observe s true y).1.savedScrollY = s.savedScrollY ∧
     (observe s true y).1.skipNextAutoSave = s.skipNextAutoSave) ∧
    (s.savedScrollY ≠ 0 →
      (observe (observe (observe s true y).1 false 0).1 true y2).2 =
        [Deferred.raf (Deferred.raf (Deferred.scrollTo s.savedScrollY false))]) ∧
    (∀ y4 : Nat, (observe s false y4).1.skipNextAutoSave = s.skipNextAutoSave) ∧
    (s.skipNextAutoSave = true →
      (observe (observe s true y).1 false y3).1.skipNextAutoSave = false ∧
      (observe (observe s true y).1 false y3).1.savedScrollY = s.savedScrollY) := by
  cases s with
  | mk sv hmt pv sk =>
    simp_all only
    subst hm hact
    have e1 : (observe (ControllerState.mk sv true false sk) true y).1 =
        ControllerState.mk sv true true sk := by
      simp only [observe]
      split_ifs <;> simp_all
    refine ⟨by rw [e1]; exact ⟨rfl, rfl⟩, ?_, ?_, ?_⟩
    · intro hsv
      rw [e1]
      have e2 : (observe (ControllerState.mk sv true true sk) false 0).1 =
          ControllerState.mk sv true false false := by
        simp only [observe]
        cases sk <;> split_ifs <;> simp_all
      rw [e2]
      simp only [observe]
      split_ifs <;> simp_all
    · intro y4
      simp only [observe]
      split_ifs <;> simp_all
    · intro hsk
      subst hsk
      rw [e1]
      exact ⟨rfl, rfl⟩

theorem activation_frame_witness :
    (observe { savedScrollY := 150, hasMounted := true, prevIsActive := false,
               skipNextAutoSave := false } true 0).1.savedScrollY = 150 := by
  have h := activation_frame
    { savedScrollY := 150, hasMounted := true, prevIsActive := false,
      skipNextAutoSave := false } 0 1 2 (by decide) (by decide)
  exact h.1.1

theorem mem_insertByPointsDesc {x e : ContributorEntry}
    {l : List ContributorEntry} :
    x ∈ insertByPointsDesc e l ↔ x = e ∨ x ∈ l := by
  induction l with
  | nil => simp [insertByPointsDesc]
  | cons a as ih =>
    simp only [insertByPointsDesc]
    split_ifs <;> simp [ih] <;> tauto

theorem pairwise_insertByPointsDesc (e : ContributorEntry)
    {l : List ContributorEntry}
    (h : l.Pairwise (fun a b => b.total_points ≤ a.total_points)) :
    (insertByPointsDesc e l).Pairwise
      (fun a b => b.total_points ≤ a.total_points) := by
  induction l with
  | nil => simp [insertByPointsDesc]
  | cons a as ih =>
    rw [List.pairwise_cons] at h
    simp only [insertByPointsDesc]
    split_ifs with hlt
    · rw [List.pairwise_cons]
      refine ⟨?_, ih h.2⟩
      intro y hy
      rcases mem_insertByPointsDesc.1 hy with rfl | hy
      · exact le_of_lt hlt
      · exact h.1 y hy
    · rw [List.pairwise_cons]
      refine ⟨?_, List.pairwise_cons.2 h⟩
      intro y hy
      rcases List.mem_cons.1 hy with rfl | hy2
      · exact le_of_not_lt hlt
      · exact le_trans (h.1 y hy2) (le_of_not_lt hlt)

theorem pairwise_sortByPointsDesc (l : List ContributorEntry) :
    (sortByPointsDesc l).Pairwise (fun a b => b.total_points ≤ a.total_points) := by
  induction l with
  | nil => simp [sortByPointsDesc]
  | cons a as ih => exact pairwise_insertByPointsDesc a ih

theorem perm_insertByPointsDesc (e : ContributorEntry)
    (l : List ContributorEntry) : (insertByPointsDesc e l).Perm (e :: l) := by
  induction l with
  | nil => simp [insertByPointsDesc]
  | cons a as ih =>
    simp only [insertByPointsDesc]
    split_ifs
    · exact ((ih.cons a).trans (List.Perm.swap e a as))
    · exact List.Perm.refl _
  
theorem perm_sortByPointsDesc (l : List ContributorEntry) :
    (sortByPointsDesc l).Perm l := by
  induction l with
  | nil => exact List.Perm.refl _
  | cons a as ih =>
    exact (perm_insertByPointsDesc a (sortByPointsDesc as)).trans (ih.cons a)

theorem foldl_runMerge_filterMap (files : List (Option LeaderboardData))
    (acc : Nat × List (String × ContributorEntry)) :
    files.foldl
      (fun acc f => match f with | none => acc | some d => mergeFile acc d)
      acc = (files.filterMap id).foldl mergeFile acc := by
  induction files generalizing acc with
  | nil => rfl
  | cons f rest ih => cases f <;> simp [List.filterMap_cons, ih]

/-- C8: a file that fails to read or parse is skipped without aborting: the
handler's result over any collection of files equals its result over just the
successfully read files. -/
theorem unreadable_files_skipped (files : List (Option LeaderboardData)) :
    GET files = GET ((files.filterMap id).map some) := by
  unfold GET runMerge
  rw [foldl_runMerge_filterMap, foldl_runMerge_filterMap]
  simp

/-- C10: the people list of a successful response is sorted in non-increasing
order of `total_points`. -/
theorem people_sorted_desc (files : List (Option LeaderboardData)) :
    ((GET files).2).Pairwise (fun a b => b.total_points ≤ a.total_points) :=
  pairwise_sortByPointsDesc _

theorem mapGet_mapSet (m : List (String × ContributorEntry)) (k k' : String)
    (v : ContributorEntry) :
    mapGet (mapSet m k v) k' = if k = k' then some v else mapGet m k' := by
  induction m with
  | nil => simp [mapGet, mapSet]
  | cons p rest ih =>
    obtain ⟨k0, v0⟩ := p
    simp only [mapGet, mapSet]
    split_ifs <;> simp_all [mapGet]

theorem keys_mapSet (m : List (String × ContributorEntry)) (k : String)
    (v : ContributorEntry) :
    (mapSet m k v).map Prod.fst =
      (if k ∈ m.map Prod.fst then m.map Prod.fst
       else m.map Prod.fst ++ [k]) := by
  induction m with
  | nil => simp [mapSet]
  | cons p rest ih =>
    obtain ⟨k0, v0⟩ := p
    simp only [mapSet]
    split_ifs with h1 h2 h2 <;> simp_all <;> tauto

theorem nodup_keys_mapSet (m : List (String × ContributorEntry)) (k : String)
    (v : ContributorEntry) (h : (m.map Prod.fst).Nodup) :
    ((mapSet m k v).map Prod.fst).Nodup := by
  rw [keys_mapSet]
  split_ifs with hin
  · exact h
  · simp [List.nodup_append, h, hin]

theorem mem_mapSet {p : String × ContributorEntry}
    {m : List (String × ContributorEntry)} {k : String} {v : ContributorEntry}
    (h : p ∈ mapSet m k v) : p = (k, v) ∨ p ∈ m := by
  induction m with
  | nil => simpa [mapSet] using h
  | cons q rest ih =>
    obtain ⟨k0, v0⟩ := q
    simp only [mapSet] at h
    split_ifs at h with h0
    · rcases List.mem_cons.1 h with rfl | h1
      · exact Or.inl rfl
      · exact Or.inr (List.mem_cons_of_mem _ h1)
    · rcases List.mem_cons.1 h with rfl | h1
      · exact Or.inr (List.mem_cons_self _ _)
      · rcases ih h1 with h2 | h2
        · exact Or.inl h2
        · exact Or.inr (List.mem_cons_of_mem _ h2)

theorem mapGet_eq_some_mem {m : List (String × ContributorEntry)} {k : String}
    {v : ContributorEntry} (h : mapGet m k = some v) : (k, v) ∈ m := by
  induction m with
  | nil => simp [mapGet] at h
  | cons q rest ih =>
    obtain ⟨k0, v0⟩ := q
    simp only [mapGet] at h
    split_ifs at h with h0
    · cases h
      subst h0
      exact List.mem_cons_self _ _
    · exact List.mem_cons_of_mem _ (ih h)

theorem mapGet_eq_none {m : List (String × ContributorEntry)} {k : String} :
    mapGet m k = none ↔ k ∉ m.map Prod.fst := by
  induction m with
  | nil => simp [mapGet]
  | cons q rest ih =>
    obtain ⟨k0, v0⟩ := q
    simp only [mapGet]
    split_ifs with h0 <;> simp_all <;> tauto

theorem addEntry_of_bot {m : List (String × ContributorEntry)}
    {e : ContributorEntry} (hb : isBotUsername e.username = true) :
    addEntry m e = m := by
  unfold addEntry
  rw [hb]
  rfl

theorem addEntry_of_none {m : List (String × ContributorEntry)}
    {e : ContributorEntry} (hb : isBotUsername e.username = false)
    (hg : mapGet m e.username = none) :
    addEntry m e = mapSet m e.username e := by
  unfold addEntry
  rw [hb, hg]
  rfl

theorem addEntry_of_some {m : List (String × ContributorEntry)}
    {e ex : ContributorEntry} (hb : isBotUsername e.username = false)
    (hg : mapGet m e.username = some ex) :
    addEntry m e =
      (if ex.total_points < e.total_points then mapSet m e.username e
       else m) := by
  unfold addEntry
  rw [hb, hg]
  rfl

theorem nodup_keys_addEntry (m : List (String × ContributorEntry))
    (e : ContributorEntry) (h : (m.map Prod.fst).Nodup) :
    ((addEntry m e).map Prod.fst).Nodup := by
  cases hb : isBotUsername e.username with
  | true => rw [addEntry_of_bot hb]; exact h
  | false =>
    cases hg : mapGet m e.username with
    | none => rw [addEntry_of_none hb hg]; exact nodup_keys_mapSet m _ e h
    | some ex =>
      rw [addEntry_of_some hb hg]
      split_ifs with hlt
      · exact nodup_keys_mapSet m _ e h
      · exact h

theorem mem_addEntry {p : String × ContributorEntry}
    {m : List (String × ContributorEntry)} {e : ContributorEntry}
    (h : p ∈ addEntry m e) :
    p ∈ m ∨ (p = (e.username, e) ∧ isBotUsername e.username = false) := by
  by_cases hb2 : isBotUsername e.username = true
  · rw [addEntry_of_bot hb2] at h
    exact Or.inl h
  · have hb : isBotUsername e.username = false := by
      cases hx : isBotUsername e.username
      · rfl
      · exact absurd hx hb2
    cases hg : mapGet m e.username with
    | none =>
      rw [addEntry_of_none hb hg] at h
      rcases mem_mapSet h with h1 | h1
      · exact Or.inr ⟨h1, hb⟩
      · exact Or.inl h1
    | some ex =>
      rw [addEntry_of_some hb hg] at h
      split_ifs at h with hlt
      · rcases mem_mapSet h with h1 | h1
        · exact Or.inr ⟨h1, hb⟩
        · exact Or.inl h1
      · exact Or.inl h

theorem mapGet_addEntry_other {m : List (String × ContributorEntry)}
    {e : ContributorEntry} {k : String} (hk : k ≠ e.username) :
    mapGet (addEntry m e) k = mapGet m k := by
  cases hb : isBotUsername e.username with
  | true => rw [addEntry_of_bot hb]
  | false =>
    cases hg : mapGet m e.username with
    | none =>
      have hk2 : ¬(e.username = k) := fun h => hk (Eq.symm h)
      rw [addEntry_of_none hb hg, mapGet_mapSet, if_neg hk2]
    | some ex =>
      rw [addEntry_of_some hb hg]
      split_ifs with hlt
      · have hk2 : ¬(e.username = k) := fun h => hk (Eq.symm h)
        rw [mapGet_mapSet, if_neg hk2]
      · rfl

theorem mapGet_addEntry_dominates {m : List (String × ContributorEntry)}
    {k : String} {v : ContributorEntry} (e : ContributorEntry)
    (h : mapGet m k = some v) :
    ∃ v', mapGet (addEntry m e) k = some v' ∧
      v.total_points ≤ v'.total_points := by
  by_cases hk : k = e.username
  · subst hk
    cases hb : isBotUsername e.username with
    | true => rw [addEntry_of_bot hb]; exact ⟨v, h, le_refl _⟩
    | false =>
      rw [addEntry_of_some hb h]
      split_ifs with hlt
      · refine ⟨e, ?_, le_of_lt hlt⟩
        rw [mapGet_mapSet]
        simp
      · exact ⟨v, h, le_refl _⟩
  · exact ⟨v, by rw [mapGet_addEntry_other hk]; exact h, le_refl _⟩

theorem mapGet_addEntry_self {m : List (String × ContributorEntry)}
    {e : ContributorEntry} (hb : isBotUsername e.username = false) :
    ∃ v, mapGet (addEntry m e) e.username = some v ∧
      e.total_points ≤ v.total_points := by
  cases hg : mapGet m e.username with
  | none =>
    rw [addEntry_of_none hb hg]
    refine ⟨e, ?_, le_refl _⟩
    rw [mapGet_mapSet]
    simp
  | some ex =>
    rw [addEntry_of_some hb hg]
    split_ifs with hlt
    · refine ⟨e, ?_, le_refl _⟩
      rw [mapGet_mapSet]
      simp
    · exact ⟨ex, hg, le_of_not_lt hlt⟩

theorem nodup_keys_foldl (es : List ContributorEntry)
    (m : List (String × ContributorEntry)) (h : (m.map Prod.fst).Nodup) :
    ((es.foldl addEntry m).map Prod.fst).Nodup := by
  induction es generalizing m with
  | nil => exact h
  | cons e rest ih => exact ih (addEntry m e) (nodup_keys_addEntry m e h)

theorem mem_foldl_addEntry {p : String × ContributorEntry}
    {es : List ContributorEntry} {m : List (String × ContributorEntry)}
    (h : p ∈ es.foldl addEntry m) :
    p ∈ m ∨ (p.2 ∈ es ∧ p.1 = p.2.username ∧
      isBotUsername p.2.username = false) := by
  induction es generalizing m with
  | nil => exact Or.inl h
  | cons e rest ih =>
    rcases ih h with h1 | h1
    · rcases mem_addEntry h1 with h2 | h2
      · exact Or.inl h2
      · right
        obtain ⟨rfl, hb⟩ := h2
        exact ⟨List.mem_cons_self _ _, rfl, hb⟩
    · exact Or.inr ⟨List.mem_cons_of_mem _ h1.1, h1.2⟩

theorem mapGet_foldl_dominates {es : List ContributorEntry}
    {m : List (String × ContributorEntry)} {k : String} {v : ContributorEntry}
    (h : mapGet m k = some v) :
    ∃ v', mapGet (es.foldl addEntry m) k = some v' ∧
      v.total_points ≤ v'.total_points := by
  induction es generalizing m v with
  | nil => exact ⟨v, h, le_refl _⟩
  | cons e rest ih =>
    obtain ⟨v1, hv1, hle1⟩ := mapGet_addEntry_dominates e h
    obtain ⟨v2, hv2, hle2⟩ := ih hv1
    exact ⟨v2, hv2, le_trans hle1 hle2⟩

theorem mapGet_foldl_self {es : List ContributorEntry}
    {e : ContributorEntry} (he : e ∈ es)
    (hb : isBotUsername e.username = false)
    (m : List (String × ContributorEntry)) :
    ∃ v, mapGet (es.foldl addEntry m) e.username = some v ∧
      e.total_points ≤ v.total_points := by
  induction es generalizing m with
  | nil => cases he
  | cons e0 rest ih =>
    rcases List.mem_cons.1 he with rfl | h1
    · obtain ⟨v1, hv1, hle1⟩ := @mapGet_addEntry_self m e hb
      obtain ⟨v2, hv2, hle2⟩ := @mapGet_foldl_dominates rest _ _ _ hv1
      exact ⟨v2, hv2, le_trans hle1 hle2⟩
    · exact ih h1 (addEntry m e0)

theorem runMerge_map_some_snd (files : List LeaderboardData)
    (acc : Nat × List (String × ContributorEntry)) :
    ((files.map some).foldl
      (fun acc f => match f with | none => acc | some d => mergeFile acc d)
      acc).2 =
    ((files.map LeaderboardData.entries).flatten).foldl addEntry acc.2 := by
  induction files generalizing acc with
  | nil => rfl
  | cons d rest ih =>
    simp only [List.map_cons, List.foldl_cons, List.flatten_cons,
      List.foldl_append]
    rw [ih]
    rfl

theorem runMerge_map_some_fst (files : List LeaderboardData)
    (acc : Nat × List (String × ContributorEntry)) :
    ((files.map some).foldl
      (fun acc f => match f with | none => acc | some d => mergeFile acc d)
      acc).1 =
    files.foldl (fun t d => if t < d.updatedAt then d.updatedAt else t) acc.1 := by
  induction files generalizing acc with
  | nil => rfl
  | cons d rest ih =>
    simp only [List.map_cons, List.foldl_cons]
    rw [ih]
    rfl

theorem foldl_latest_spec (files : List LeaderboardData) (t : Nat) :
    t ≤ files.foldl (fun t d => if t < d.updatedAt then d.updatedAt else t) t ∧
    (∀ d ∈ files, d.updatedAt ≤
      files.foldl (fun t d => if t < d.updatedAt then d.updatedAt else t) t) ∧
    (files.foldl (fun t d => if t < d.updatedAt then d.updatedAt else t) t = t ∨
      ∃ d ∈ files,
        files.foldl (fun t d => if t < d.updatedAt then d.updatedAt else t) t
          = d.updatedAt) := by
  induction files generalizing t with
  | nil => exact ⟨le_refl _, by simp, Or.inl rfl⟩
  | cons d rest ih =>
    simp only [List.foldl_cons]
    set t1 := if t < d.updatedAt then d.updatedAt else t with ht1
    obtain ⟨ih1, ih2, ih3⟩ := ih t1
    have htle : t ≤ t1 := by
      rw [ht1]; split_ifs with h
      · exact le_of_lt h
      · exact le_refl _
    have hdle : d.updatedAt ≤ t1 := by
      rw [ht1]; split_ifs with h
      · exact le_refl _
      · exact le_of_not_lt h
    refine ⟨le_trans htle ih1, ?_, ?_⟩
    · intro d0 hd0
      rcases List.mem_cons.1 hd0 with rfl | hd1
      · exact le_trans hdle ih1
      · exact ih2 d0 hd1
    · rcases ih3 with h1 | ⟨d0, hd0, h1⟩
      · rw [h1, ht1]
        split_ifs with h
        · exact Or.inr ⟨d, List.mem_cons_self _ _, rfl⟩
        · exact Or.inl rfl
      · exact Or.inr ⟨d0, List.mem_cons_of_mem _ hd0, h1⟩

theorem countP_values (u : String) (m : List (String × ContributorEntry))
    (hkeys : (m.map Prod.fst).Nodup)
    (hval : ∀ p ∈ m, p.2.username = p.1) :
    (m.map Prod.snd).countP (fun e => e.username == u) =
      if u ∈ m.map Prod.fst then 1 else 0 := by
  induction m with
  | nil => simp
  | cons p rest ih =>
    obtain ⟨k, v⟩ := p
    have hvk : v.username = k := hval (k, v) (List.mem_cons_self _ _)
    have hk1 : k ∉ rest.map Prod.fst := by
      rw [List.map_cons, List.nodup_cons] at hkeys
      exact hkeys.1
    have hk2 : (rest.map Prod.fst).Nodup := by
      rw [List.map_cons, List.nodup_cons] at hkeys
      exact hkeys.2
    have ih' := ih hk2 (fun q hq => hval q (List.mem_cons_of_mem _ hq))
    rw [List.map_cons, List.countP_cons, ih']
    by_cases hku : k = u
    · subst hku
      have hpv : (v.username == k) = true := by simp [hvk]
      simp [hpv, hk1]
    · have hpv : (v.username == u) = false := by
        simp [hvk]
        exact hku
      simp only [List.map_cons, List.mem_cons, hpv]
      have : (u ∈ rest.map Prod.fst ∨ u = k) ↔ u ∈ rest.map Prod.fst := by
        constructor
        · rintro (h | rfl)
          · exact h
          · exact absurd rfl (fun h2 => hku h2.symm)
        · exact Or.inl
      split_ifs with h1 h2 h2 <;> simp_all

theorem mem_entries_flatten {e : ContributorEntry}
    {files : List LeaderboardData} :
    e ∈ (files.map LeaderboardData.entries).flatten ↔
      ∃ d ∈ files, e ∈ d.entries := by
  simp [List.mem_flatten, List.mem_map]

theorem GET_fst (files : List (Option LeaderboardData)) :
    (GET files).1 = (runMerge files).1 := rfl

theorem GET_snd (files : List (Option LeaderboardData)) :
    (GET files).2 = sortByPointsDesc ((runMerge files).2.map Prod.snd) := rfl

/-- C7: the handler returns exactly one entry per non-bot username appearing
in some file, that entry dominating every same-username entry across all files
in `total_points`, and the latest `updatedAt` among the files. -/
theorem merged_people (files : List LeaderboardData) :
    (∀ u : String,
      ((GET (files.map some)).2).countP (fun e => e.username == u) =
        (if (∃ d ∈ files, ∃ e ∈ d.entries, e.username = u) ∧
            isBotUsername u = false then 1 else 0)) ∧
    (∀ d ∈ files, ∀ e ∈ d.entries, isBotUsername e.username = false →
      ∃ e' ∈ (GET (files.map some)).2, e'.username = e.username ∧
        e.total_points ≤ e'.total_points) ∧
    ((∀ d ∈ files, d.updatedAt ≤ (GET (files.map some)).1) ∧
     ((GET (files.map some)).1 = 0 ∨
       ∃ d ∈ files, (GET (files.map some)).1 = d.updatedAt)) := by
  have hsnd : (runMerge (files.map some)).2 =
      ((files.map LeaderboardData.entries).flatten).foldl addEntry [] :=
    runMerge_map_some_snd files (0, [])
  have hfst : (runMerge (files.map some)).1 =
      files.foldl (fun t d => if t < d.updatedAt then d.updatedAt else t) 0 :=
    runMerge_map_some_fst files (0, [])
  set m := ((files.map LeaderboardData.entries).flatten).foldl addEntry []
    with hm
  have hnodup : (m.map Prod.fst).Nodup := nodup_keys_foldl _ [] (by simp)
  have hval : ∀ p ∈ m, p.2.username = p.1 := by
    intro p hp
    rcases mem_foldl_addEntry hp with h | h
    · exact absurd h (List.not_mem_nil p)
    · exact h.2.1.symm
  have hkeys_iff : ∀ u : String, u ∈ m.map Prod.fst ↔
      ((∃ d ∈ files, ∃ e ∈ d.entries, e.username = u) ∧
        isBotUsername u = false) := by
    intro u
    constructor
    · intro hu
      rcases List.mem_map.1 hu with ⟨p, hp, rfl⟩
      rcases mem_foldl_addEntry hp with h | h
      · exact absurd h (List.not_mem_nil p)
      · obtain ⟨hes, hukey, hb⟩ := h
        rcases mem_entries_flatten.1 hes with ⟨d, hd, he⟩
        exact ⟨⟨d, hd, p.2, he, hukey.symm⟩, by rw [hukey]; exact hb⟩
    · rintro ⟨⟨d, hd, e, he, rfl⟩, hb⟩
      have hes : e ∈ (files.map LeaderboardData.entries).flatten :=
        mem_entries_flatten.2 ⟨d, hd, he⟩
      obtain ⟨v, hv, hle⟩ := mapGet_foldl_self hes hb []
      exact List.mem_map.2 ⟨(e.username, v), mapGet_eq_some_mem hv, rfl⟩
  refine ⟨?_, ?_, ?_⟩
  · intro u
    rw [GET_snd, hsnd, (perm_sortByPointsDesc _).countP_eq,
      countP_values u m hnodup hval]
    by_cases hc : (∃ d ∈ files, ∃ e ∈ d.entries, e.username = u) ∧
        isBotUsername u = false
    · rw [if_pos ((hkeys_iff u).2 hc), if_pos hc]
    · rw [if_neg (fun h => hc ((hkeys_iff u).1 h)), if_neg hc]
  · intro d hd e he hb
    have hes : e ∈ (files.map LeaderboardData.entries).flatten :=
      mem_entries_flatten.2 ⟨d, hd, he⟩
    obtain ⟨v, hv, hle⟩ := mapGet_foldl_self hes hb []
    have hvm : (e.username, v) ∈ m := mapGet_eq_some_mem hv
    have hvv : v ∈ m.map Prod.snd := List.mem_map.2 ⟨_, hvm, rfl⟩
    refine ⟨v, ?_, hval (e.username, v) hvm, hle⟩
    rw [GET_snd, hsnd]
    exact ((perm_sortByPointsDesc _).mem_iff).2 hvv
  · constructor
    · intro d hd
      rw [GET_fst, hfst]
      exact (foldl_latest_spec files 0).2.1 d hd
    · rw [GET_fst, hfst]
      rcases (foldl_latest_spec files 0).2.2 with h | ⟨d, hd, h⟩
      · exact Or.inl h
      · exact Or.inr ⟨d, hd, h⟩
